import Mathlib

/-!
# Matrix keypad driver (`Core/Src/keypad_driver.c`)

A shallow embedding of `keypad_init` and `keypad_scan`.  The GPIO hardware is an
explicit state (the level driven on every line plus the chronological log of
the HAL calls made so far); each C function becomes a function from GPIO state
to GPIO state.  The behaviour of the input side of the hardware is a parameter
`idr` of the scan: an arbitrary function of the whole GPIO state (levels and
history) and of the line being sampled.
-/

namespace Keypad

/-- Number of rows of the matrix (`KEYPAD_ROWS`).
Modelled from the spec: the header `keypad_driver.h` that defines the constant
is missing; the spec fixes the matrix to 4x4. -/
abbrev KEYPAD_ROWS : Nat := 4

/-- Number of columns of the matrix (`KEYPAD_COLS`).
Modelled from the spec: the header `keypad_driver.h` that defines the constant
is missing; the spec fixes the matrix to 4x4. -/
abbrev KEYPAD_COLS : Nat := 4

/-- Logic level of a pin (`GPIO_PinState` of the vendor HAL). -/
inductive GPIO_PinState where
  | GPIO_PIN_RESET
  | GPIO_PIN_SET
  deriving DecidableEq, Repr

open GPIO_PinState

/-- The keypad handle.
Modelled from the spec: the struct declaration lives in the missing header
`keypad_driver.h`; the spec describes it as fixed-length arrays of port and pin
identifiers, one entry per row and per column.  Ports (pointers) and pin
numbers (`uint16_t`) are natural numbers; they are only ever compared. -/
structure keypad_handle_t where
  row_ports : Fin KEYPAD_ROWS → Nat
  row_pins : Fin KEYPAD_ROWS → Nat
  col_ports : Fin KEYPAD_COLS → Nat
  col_pins : Fin KEYPAD_COLS → Nat

/-- The static key map `keypad_map[KEYPAD_ROWS][KEYPAD_COLS]`. -/
def keypad_map : Fin KEYPAD_ROWS → Fin KEYPAD_COLS → Char :=
  ![![ '1', '2', '3', 'A'],
    ![ '4', '5', '6', 'B'],
    ![ '7', '8', '9', 'C'],
    ![ '*', '0', '#', 'D']]

/-- One call of a HAL GPIO primitive: a write of a level to a line, or a read
of a line together with the level it returned. -/
inductive GPIO_Event where
  | write (port pin : Nat) (state : GPIO_PinState)
  | read (port pin : Nat) (state : GPIO_PinState)
  deriving DecidableEq, Repr

/-- The GPIO hardware: the level currently driven on every line (port, pin) and
the log of all HAL calls so far, oldest first. -/
structure GPIO where
  level : Nat → Nat → GPIO_PinState
  log : List GPIO_Event

/-- Level function after driving line `(port, pin)` to `st`. -/
def set_level (lv : Nat → Nat → GPIO_PinState) (port pin : Nat) (st : GPIO_PinState) :
    Nat → Nat → GPIO_PinState :=
  fun p q => if p = port ∧ q = pin then st else lv p q

/-- The HAL write primitive `HAL_GPIO_WritePin(port, pin, state)`.
Modelled from the spec: the vendor HAL is not part of the sources; the spec
describes it as the primitive that sets a pin to high or low. -/
def HAL_GPIO_WritePin (g : GPIO) (port pin : Nat) (st : GPIO_PinState) : GPIO :=
  { level := set_level g.level port pin st
    log := g.log ++ [GPIO_Event.write port pin st] }

/-- The HAL read primitive `HAL_GPIO_ReadPin(port, pin)`.
Modelled from the spec: the vendor HAL is not part of the sources; the spec
describes it as the primitive that queries a pin level.  The level returned is
given by the input behaviour `idr`; reading changes no level. -/
def HAL_GPIO_ReadPin (idr : GPIO → Nat → Nat → GPIO_PinState) (g : GPIO) (port pin : Nat) :
    GPIO_PinState × GPIO :=
  (idr g port pin, { g with log := g.log ++ [GPIO_Event.read port pin (idr g port pin)] })

/-- The loop `for (i = 0; i < KEYPAD_ROWS; i++) HAL_GPIO_WritePin(row i, st)`,
over the row indices still to visit. -/
def write_rows (keypad : keypad_handle_t) (st : GPIO_PinState) :
    List (Fin KEYPAD_ROWS) → GPIO → GPIO
  | [], g => g
  | i :: rest, g =>
    write_rows keypad st rest (HAL_GPIO_WritePin g (keypad.row_ports i) (keypad.row_pins i) st)

/-- The C function `keypad_init`: one loop writing low to every row. -/
def keypad_init (keypad : keypad_handle_t) (g : GPIO) : GPIO :=
  write_rows keypad GPIO_PIN_RESET (List.finRange KEYPAD_ROWS) g

/-- The column search loop of `keypad_scan` (step 1), over the column indices
still to visit; `none` stands for `col_index == -1`. -/
def find_col (keypad : keypad_handle_t) (col_pin : Nat) :
    List (Fin KEYPAD_COLS) → Option (Fin KEYPAD_COLS)
  | [] => none
  | i :: rest => if col_pin = keypad.col_pins i then some i else find_col keypad col_pin rest

/-- The row probing loop of `keypad_scan` (step 3), over the row indices still
to visit, threading `key_pressed`; the `break` is the branch that returns
without visiting `rest`. -/
def probe_rows (idr : GPIO → Nat → Nat → GPIO_PinState) (keypad : keypad_handle_t)
    (col_index : Fin KEYPAD_COLS) : List (Fin KEYPAD_ROWS) → Char → GPIO → Char × GPIO
  | [], key_pressed, g => (key_pressed, g)
  | row :: rest, key_pressed, g =>
    let g1 := HAL_GPIO_WritePin g (keypad.row_ports row) (keypad.row_pins row) GPIO_PIN_RESET
    let r := HAL_GPIO_ReadPin idr g1 (keypad.col_ports col_index) (keypad.col_pins col_index)
    if r.1 = GPIO_PIN_RESET then
      (keypad_map row col_index, r.2)
    else
      probe_rows idr keypad col_index rest key_pressed
        (HAL_GPIO_WritePin r.2 (keypad.row_ports row) (keypad.row_pins row) GPIO_PIN_SET)

/-- The C function `keypad_scan`: returns the key and the GPIO state on exit. -/
def keypad_scan (idr : GPIO → Nat → Nat → GPIO_PinState) (keypad : keypad_handle_t)
    (col_pin : Nat) (g : GPIO) : Char × GPIO :=
  match find_col keypad col_pin (List.finRange KEYPAD_COLS) with
  | none => ('\x00', g)
  | some col_index =>
    let g1 := write_rows keypad GPIO_PIN_SET (List.finRange KEYPAD_ROWS) g
    let r := probe_rows idr keypad col_index (List.finRange KEYPAD_ROWS) '\x00' g1
    (r.1, write_rows keypad GPIO_PIN_RESET (List.finRange KEYPAD_ROWS) r.2)

/-! ## A concrete board used to evaluate the model -/

/-- A handle with four distinct row lines and four distinct column lines. -/
def board : keypad_handle_t where
  row_ports := ![0, 0, 1, 1]
  row_pins := ![1, 2, 1, 2]
  col_ports := ![2, 2, 3, 3]
  col_pins := ![16, 32, 64, 128]

/-- The GPIO state with every line low and an empty log. -/
def idle : GPIO where
  level := fun _ _ => GPIO_PIN_RESET
  log := []

/-- Input behaviour of a matrix with the single key at junction `(r, c)` held
down: column `c` reads low exactly when row `r` is driven low; every other
line reads high. -/
def key_down (keypad : keypad_handle_t) (r : Fin KEYPAD_ROWS) (c : Fin KEYPAD_COLS) :
    GPIO → Nat → Nat → GPIO_PinState :=
  fun g port pin =>
    if port = keypad.col_ports c ∧ pin = keypad.col_pins c then
      g.level (keypad.row_ports r) (keypad.row_pins r)
    else GPIO_PIN_SET

/-- Input behaviour of a matrix with no key held down: every line reads high. -/
def no_key : GPIO → Nat → Nat → GPIO_PinState :=
  fun _ _ _ => GPIO_PIN_SET

/-! ## Traces of GPIO events -/

/-- Effect of one logged HAL call on the driven levels: a write drives its
line, a read changes nothing. -/
def apply_event (lv : Nat → Nat → GPIO_PinState) : GPIO_Event → Nat → Nat → GPIO_PinState
  | GPIO_Event.write port pin st => set_level lv port pin st
  | GPIO_Event.read _ _ _ => lv

/-- Levels reached from `lv` after the events `es`, oldest first. -/
def replay (lv : Nat → Nat → GPIO_PinState) (es : List GPIO_Event) : Nat → Nat → GPIO_PinState :=
  es.foldl apply_event lv

/-- The events a call appended to the log: what `g2` logged beyond `g1`. -/
def events_since (g1 g2 : GPIO) : List GPIO_Event :=
  g2.log.drop g1.log.length

/-- The GPIO events performed by one call of `keypad_scan`. -/
def scan_trace (idr : GPIO → Nat → Nat → GPIO_PinState) (keypad : keypad_handle_t)
    (col_pin : Nat) (g : GPIO) : List GPIO_Event :=
  events_since g (keypad_scan idr keypad col_pin g).2

/-- The GPIO events performed by one call of `keypad_init`. -/
def init_trace (keypad : keypad_handle_t) (g : GPIO) : List GPIO_Event :=
  events_since g (keypad_init keypad g)

/-- The levels returned by the reads of a trace, oldest first. -/
def reads_of : List GPIO_Event → List GPIO_PinState
  | [] => []
  | GPIO_Event.read _ _ st :: es => st :: reads_of es
  | GPIO_Event.write _ _ _ :: es => reads_of es

/-- The write event driving row `i` to `st`. -/
def row_write (keypad : keypad_handle_t) (st : GPIO_PinState) (i : Fin KEYPAD_ROWS) :
    GPIO_Event :=
  GPIO_Event.write (keypad.row_ports i) (keypad.row_pins i) st

/-- The read event sampling column `c` with result `st`. -/
def col_read (keypad : keypad_handle_t) (c : Fin KEYPAD_COLS) (st : GPIO_PinState) :
    GPIO_Event :=
  GPIO_Event.read (keypad.col_ports c) (keypad.col_pins c) st

/-- Events of a probe of row `i` that read column `c` high: drive the row low,
read high, restore the row to high. -/
def probe_high (keypad : keypad_handle_t) (c : Fin KEYPAD_COLS) (i : Fin KEYPAD_ROWS) :
    List GPIO_Event :=
  [row_write keypad GPIO_PIN_RESET i, col_read keypad c GPIO_PIN_SET,
    row_write keypad GPIO_PIN_SET i]

/-- Events of a probe of row `i` that read column `c` low: drive the row low,
read low. -/
def probe_low (keypad : keypad_handle_t) (c : Fin KEYPAD_COLS) (i : Fin KEYPAD_ROWS) :
    List GPIO_Event :=
  [row_write keypad GPIO_PIN_RESET i, col_read keypad c GPIO_PIN_RESET]

/-- Level driven on row line `i`. -/
def row_level (keypad : keypad_handle_t) (lv : Nat → Nat → GPIO_PinState)
    (i : Fin KEYPAD_ROWS) : GPIO_PinState :=
  lv (keypad.row_ports i) (keypad.row_pins i)

/-- The row lines of the handle are pairwise distinct (as port/pin pairs). -/
def rows_distinct (keypad : keypad_handle_t) : Prop :=
  ∀ i j : Fin KEYPAD_ROWS,
    keypad.row_ports i = keypad.row_ports j → keypad.row_pins i = keypad.row_pins j → i = j

/-- The column pin numbers of the handle are pairwise distinct. -/
def col_pins_distinct (keypad : keypad_handle_t) : Prop :=
  ∀ i j : Fin KEYPAD_COLS, keypad.col_pins i = keypad.col_pins j → i = j

instance (keypad : keypad_handle_t) : Decidable (rows_distinct keypad) := by
  unfold rows_distinct; infer_instance

instance (keypad : keypad_handle_t) : Decidable (col_pins_distinct keypad) := by
  unfold col_pins_distinct; infer_instance

/-! ## Trace shapes and row-level predicates -/

/-- The trace of a scan of a valid column in which every probe read high. -/
def miss_trace (keypad : keypad_handle_t) (c : Fin KEYPAD_COLS) : List GPIO_Event :=
  (List.finRange KEYPAD_ROWS).map (row_write keypad GPIO_PIN_SET) ++
    (List.finRange KEYPAD_ROWS).flatMap (probe_high keypad c) ++
    (List.finRange KEYPAD_ROWS).map (row_write keypad GPIO_PIN_RESET)

/-- The trace of a scan of a valid column in which the probe of row `r` is the
first to read low: all rows high, the rows below `r` probed high, row `r`
probed low, all rows low. -/
def hit_trace (keypad : keypad_handle_t) (c : Fin KEYPAD_COLS) (r : Fin KEYPAD_ROWS) :
    List GPIO_Event :=
  (List.finRange KEYPAD_ROWS).map (row_write keypad GPIO_PIN_SET) ++
    (((List.finRange KEYPAD_ROWS).take r.val).flatMap (probe_high keypad c) ++
      probe_low keypad c r) ++
    (List.finRange KEYPAD_ROWS).map (row_write keypad GPIO_PIN_RESET)

/-- Every row line is high. -/
def all_high (keypad : keypad_handle_t) (lv : Nat → Nat → GPIO_PinState) : Prop :=
  ∀ i, row_level keypad lv i = GPIO_PIN_SET

/-- Row `r` is low and every other row line is high. -/
def only_low (keypad : keypad_handle_t) (lv : Nat → Nat → GPIO_PinState)
    (r : Fin KEYPAD_ROWS) : Prop :=
  row_level keypad lv r = GPIO_PIN_RESET ∧ ∀ i, i ≠ r → row_level keypad lv i = GPIO_PIN_SET

/-- No two different rows are low together. -/
def at_most_one_low (keypad : keypad_handle_t) (lv : Nat → Nat → GPIO_PinState) : Prop :=
  ∀ i j, row_level keypad lv i = GPIO_PIN_RESET → row_level keypad lv j = GPIO_PIN_RESET → i = j

/-- Walks a trace from the levels `lv`, `prev` being the event just before it:
in every state met no two rows are low together, and every read comes right
after the write that drove some row `r` low, in a state where `r` is the only
low row. -/
def probe_ok (keypad : keypad_handle_t) :
    Option GPIO_Event → (Nat → Nat → GPIO_PinState) → List GPIO_Event → Prop
  | _, lv, [] => at_most_one_low keypad lv
  | prev, lv, e :: t =>
    at_most_one_low keypad lv ∧
      (∀ port pin v, e = GPIO_Event.read port pin v →
        ∃ r, prev = some (row_write keypad GPIO_PIN_RESET r) ∧ only_low keypad lv r) ∧
      probe_ok keypad (some e) (apply_event lv e) t

/-- A handle whose columns 0 and 1 are one and the same line (port 2, pin 16). -/
def twin : keypad_handle_t where
  row_ports := ![0, 0, 1, 1]
  row_pins := ![1, 2, 1, 2]
  col_ports := ![2, 2, 3, 3]
  col_pins := ![16, 16, 64, 128]

/-- A handle whose columns 0 and 1 carry the same pin number 16 on two
different ports. -/
def cross_port : keypad_handle_t where
  row_ports := ![0, 0, 1, 1]
  row_pins := ![1, 2, 1, 2]
  col_ports := ![2, 3, 3, 3]
  col_pins := ![16, 16, 64, 128]

/-- The GPIO state with every line high and an empty log. -/
def all_set : GPIO where
  level := fun _ _ => GPIO_PIN_SET
  log := []

/-- Input behaviour of a matrix with the junctions `closed` conducting: the
line of a column reads low exactly when some row connected to that column is
driven low; any other line reads high. -/
def matrix_input (keypad : keypad_handle_t) (closed : Fin KEYPAD_ROWS → Fin KEYPAD_COLS → Bool) :
    GPIO → Nat → Nat → GPIO_PinState :=
  fun g port pin =>
    if ∃ c r, port = keypad.col_ports c ∧ pin = keypad.col_pins c ∧ closed r c = true ∧
        g.level (keypad.row_ports r) (keypad.row_pins r) = GPIO_PIN_RESET
    then GPIO_PIN_RESET else GPIO_PIN_SET

/-- The set of closed junctions with the single key at row 2, column 2 held
down. -/
def only_2_2 : Fin KEYPAD_ROWS → Fin KEYPAD_COLS → Bool :=
  fun r c => decide (r = 2 ∧ c = 2)

/-! ## Structural lemmas -/

theorem finRange_rows : List.finRange KEYPAD_ROWS = [0, 1, 2, 3] := by rfl

theorem replay_append (lv : Nat → Nat → GPIO_PinState) (a b : List GPIO_Event) :
    replay lv (a ++ b) = replay (replay lv a) b := by
  simp [replay, List.foldl_append]

theorem replay_cons (lv : Nat → Nat → GPIO_PinState) (e : GPIO_Event) (es : List GPIO_Event) :
    replay lv (e :: es) = replay (apply_event lv e) es := rfl

theorem replay_nil (lv : Nat → Nat → GPIO_PinState) : replay lv [] = lv := rfl

theorem write_rows_eq (keypad : keypad_handle_t) (st : GPIO_PinState)
    (rows : List (Fin KEYPAD_ROWS)) (g : GPIO) :
    write_rows keypad st rows g =
      { level := replay g.level (rows.map (row_write keypad st))
        log := g.log ++ rows.map (row_write keypad st) } := by
  induction rows generalizing g with
  | nil => simp [write_rows, replay]
  | cons i rest ih =>
    simp [write_rows, ih, HAL_GPIO_WritePin, replay, apply_event, row_write]

/-- Shape of a run of the probing loop: either every probe read high, or the
probe of the row at some position `k` read low after `k` probes that read
high. -/
theorem probe_rows_cases (idr : GPIO → Nat → Nat → GPIO_PinState) (keypad : keypad_handle_t)
    (c : Fin KEYPAD_COLS) (rows : List (Fin KEYPAD_ROWS)) (key : Char) (g : GPIO) :
    (probe_rows idr keypad c rows key g =
        (key, { level := replay g.level (rows.flatMap (probe_high keypad c))
                log := g.log ++ rows.flatMap (probe_high keypad c) })) ∨
    (∃ (k : Nat) (hk : k < rows.length),
      probe_rows idr keypad c rows key g =
        (keypad_map (rows.get ⟨k, hk⟩) c,
          { level := replay g.level
              ((rows.take k).flatMap (probe_high keypad c) ++ probe_low keypad c (rows.get ⟨k, hk⟩))
            log := g.log ++
              ((rows.take k).flatMap (probe_high keypad c) ++
                probe_low keypad c (rows.get ⟨k, hk⟩)) })) := by
  induction rows generalizing g with
  | nil => left; simp [probe_rows, replay]
  | cons row rest ih =>
    by_cases hv : idr (HAL_GPIO_WritePin g (keypad.row_ports row) (keypad.row_pins row)
        GPIO_PIN_RESET) (keypad.col_ports c) (keypad.col_pins c) = GPIO_PIN_RESET
    · right
      refine ⟨0, by simp, ?_⟩
      simp only [probe_rows, HAL_GPIO_ReadPin]
      rw [if_pos hv, hv]
      simp [HAL_GPIO_WritePin, probe_low, replay, apply_event, row_write, col_read]
    · have hs : idr (HAL_GPIO_WritePin g (keypad.row_ports row) (keypad.row_pins row)
          GPIO_PIN_RESET) (keypad.col_ports c) (keypad.col_pins c) = GPIO_PIN_SET := by
        cases h : idr (HAL_GPIO_WritePin g (keypad.row_ports row) (keypad.row_pins row)
          GPIO_PIN_RESET) (keypad.col_ports c) (keypad.col_pins c) with
        | GPIO_PIN_RESET => exact absurd h hv
        | GPIO_PIN_SET => rfl
      rcases ih (HAL_GPIO_WritePin
          (HAL_GPIO_ReadPin idr (HAL_GPIO_WritePin g (keypad.row_ports row) (keypad.row_pins row)
            GPIO_PIN_RESET) (keypad.col_ports c) (keypad.col_pins c)).2
          (keypad.row_ports row) (keypad.row_pins row) GPIO_PIN_SET) with h | ⟨k, hk, h⟩
      · left
        simp only [probe_rows, HAL_GPIO_ReadPin] at h ⊢
        rw [if_neg hv, h, hs]
        simp [HAL_GPIO_WritePin, probe_high, replay, apply_event, row_write, col_read]
      · right
        refine ⟨k + 1, by simpa using hk, ?_⟩
        simp only [probe_rows, HAL_GPIO_ReadPin] at h ⊢
        rw [if_neg hv, h, hs]
        simp [HAL_GPIO_WritePin, probe_high, replay, apply_event, row_write, col_read]

theorem find_col_none (keypad : keypad_handle_t) (col_pin : Nat)
    (cols : List (Fin KEYPAD_COLS)) :
    find_col keypad col_pin cols = none ↔ ∀ i ∈ cols, keypad.col_pins i ≠ col_pin := by
  induction cols with
  | nil => simp [find_col]
  | cons i rest ih =>
    by_cases h : col_pin = keypad.col_pins i
    · simp [find_col, h]
    · simp [find_col, h, ih, Ne.symm h]

theorem find_col_some (keypad : keypad_handle_t) (col_pin : Nat)
    (cols : List (Fin KEYPAD_COLS)) (c : Fin KEYPAD_COLS)
    (h : find_col keypad col_pin cols = some c) : keypad.col_pins c = col_pin := by
  induction cols with
  | nil => simp [find_col] at h
  | cons i rest ih =>
    by_cases hi : col_pin = keypad.col_pins i
    · simp [find_col, hi] at h
      rw [← h, hi]
    · simp [find_col, hi] at h
      exact ih h

theorem find_col_sorted (keypad : keypad_handle_t) (col_pin : Nat) (c : Fin KEYPAD_COLS)
    (cols : List (Fin KEYPAD_COLS)) (hs : cols.Pairwise (fun a b => a < b)) :
    find_col keypad col_pin cols = some c ↔
      (c ∈ cols ∧ keypad.col_pins c = col_pin ∧
        ∀ j ∈ cols, j < c → keypad.col_pins j ≠ col_pin) := by
  induction cols with
  | nil => simp [find_col]
  | cons i rest ih =>
    rw [List.pairwise_cons] at hs
    obtain ⟨hlt, hrest⟩ := hs
    by_cases hi : col_pin = keypad.col_pins i
    · simp only [find_col, hi, if_true]
      constructor
      · intro h
        have hc : i = c := by simpa using h
        subst hc
        refine ⟨by simp, rfl, ?_⟩
        intro j hj hji
        rcases List.mem_cons.1 hj with rfl | hj
        · exact absurd hji (lt_irrefl _)
        · exact absurd hji (not_lt.2 (le_of_lt (hlt j hj)))
      · rintro ⟨hc, _, hall⟩
        rcases List.mem_cons.1 hc with rfl | hc
        · rfl
        · exact absurd rfl (hall i (by simp) (hlt c hc))
    · simp only [find_col, hi, if_false]
      rw [ih hrest]
      constructor
      · rintro ⟨hc, hp, hall⟩
        refine ⟨List.mem_cons_of_mem _ hc, hp, ?_⟩
        intro j hj hjc
        rcases List.mem_cons.1 hj with rfl | hj
        · exact Ne.symm hi
        · exact hall j hj hjc
      · rintro ⟨hc, hp, hall⟩
        rcases List.mem_cons.1 hc with rfl | hc
        · exact absurd hp.symm hi
        · exact ⟨hc, hp, fun j hj hjc => hall j (List.mem_cons_of_mem _ hj) hjc⟩

/-- The column search resolves `col_pin` to `c` exactly when `c` is the lowest
column index carrying that pin number. -/
theorem find_col_first (keypad : keypad_handle_t) (col_pin : Nat) (c : Fin KEYPAD_COLS) :
    find_col keypad col_pin (List.finRange KEYPAD_COLS) = some c ↔
      (keypad.col_pins c = col_pin ∧ ∀ j, j < c → keypad.col_pins j ≠ col_pin) := by
  rw [find_col_sorted keypad col_pin c _ (List.pairwise_lt_finRange KEYPAD_COLS)]
  simp

/-- A pin carried by some column is resolved to some column. -/
theorem find_col_of_valid (keypad : keypad_handle_t) (col_pin : Nat)
    (h : ∃ i, keypad.col_pins i = col_pin) :
    ∃ c, find_col keypad col_pin (List.finRange KEYPAD_COLS) = some c := by
  cases hf : find_col keypad col_pin (List.finRange KEYPAD_COLS) with
  | some c => exact ⟨c, rfl⟩
  | none =>
    obtain ⟨i, hi⟩ := h
    exact absurd hi ((find_col_none _ _ _).1 hf i (List.mem_finRange i))

theorem scan_foreign (idr : GPIO → Nat → Nat → GPIO_PinState) (keypad : keypad_handle_t)
    (col_pin : Nat) (g : GPIO) (h : ∀ i, keypad.col_pins i ≠ col_pin) :
    keypad_scan idr keypad col_pin g = ('\x00', g) := by
  have hn : find_col keypad col_pin (List.finRange KEYPAD_COLS) = none :=
    (find_col_none _ _ _).2 (fun i _ => h i)
  simp [keypad_scan, hn]

/-- Shape of a scan of a valid column: the result and the final GPIO state are
those of the all-high trace or of the trace that stops at some row `r`. -/
theorem scan_valid (idr : GPIO → Nat → Nat → GPIO_PinState) (keypad : keypad_handle_t)
    (col_pin : Nat) (g : GPIO) (c : Fin KEYPAD_COLS)
    (h : find_col keypad col_pin (List.finRange KEYPAD_COLS) = some c) :
    keypad_scan idr keypad col_pin g =
        ('\x00', { level := replay g.level (miss_trace keypad c)
                   log := g.log ++ miss_trace keypad c }) ∨
    ∃ r : Fin KEYPAD_ROWS,
      keypad_scan idr keypad col_pin g =
        (keypad_map r c, { level := replay g.level (hit_trace keypad c r)
                           log := g.log ++ hit_trace keypad c r }) := by
  simp only [keypad_scan, h]
  rcases probe_rows_cases idr keypad c (List.finRange KEYPAD_ROWS) '\x00'
      (write_rows keypad GPIO_PIN_SET (List.finRange KEYPAD_ROWS) g) with hp | ⟨k, hk, hp⟩
  · left
    rw [hp, write_rows_eq, write_rows_eq]
    simp [miss_trace, replay_append]
  · right
    have hk4 : k < KEYPAD_ROWS := by simpa using hk
    refine ⟨⟨k, hk4⟩, ?_⟩
    have hget : (List.finRange KEYPAD_ROWS).get ⟨k, hk⟩ = ⟨k, hk4⟩ := by
      simp [List.get_finRange]
    rw [hp, write_rows_eq, write_rows_eq, hget]
    simp [hit_trace, replay_append]

theorem events_since_append (g : GPIO) (lv : Nat → Nat → GPIO_PinState)
    (t : List GPIO_Event) : events_since g { level := lv, log := g.log ++ t } = t := by
  simp [events_since]

theorem events_since_self (g : GPIO) : events_since g g = [] := by
  simp [events_since]

/-- After a trace that ends with the given rows all written to `st`, each of
those rows is at `st` (also when several rows share a line). -/
theorem replay_row_writes (keypad : keypad_handle_t) (st : GPIO_PinState)
    (rows : List (Fin KEYPAD_ROWS)) (lv : Nat → Nat → GPIO_PinState) (i : Fin KEYPAD_ROWS)
    (h : row_level keypad lv i = st ∨ i ∈ rows) :
    row_level keypad (replay lv (rows.map (row_write keypad st))) i = st := by
  induction rows generalizing lv with
  | nil => simpa [replay] using h
  | cons a rest ih =>
    rw [List.map_cons, replay_cons]
    apply ih
    by_cases hm : i ∈ rest
    · exact Or.inr hm
    · left
      by_cases hl : keypad.row_ports i = keypad.row_ports a ∧ keypad.row_pins i = keypad.row_pins a
      · simp [row_level, row_write, apply_event, set_level, hl]
      · rcases h with h | h
        · simpa [row_level, row_write, apply_event, set_level, hl] using h
        · rcases List.mem_cons.1 h with rfl | h
          · exact absurd ⟨rfl, rfl⟩ hl
          · exact absurd h hm

theorem replay_ends_low (keypad : keypad_handle_t) (lv : Nat → Nat → GPIO_PinState)
    (t : List GPIO_Event) (i : Fin KEYPAD_ROWS) :
    row_level keypad
      (replay lv (t ++ (List.finRange KEYPAD_ROWS).map (row_write keypad GPIO_PIN_RESET))) i =
        GPIO_PIN_RESET := by
  rw [replay_append]
  exact replay_row_writes keypad _ _ _ i (Or.inr (List.mem_finRange i))

theorem rows_low_of_valid (idr : GPIO → Nat → Nat → GPIO_PinState) (keypad : keypad_handle_t)
    (col_pin : Nat) (g : GPIO) (h : ∃ i, keypad.col_pins i = col_pin) (i : Fin KEYPAD_ROWS) :
    row_level keypad (keypad_scan idr keypad col_pin g).2.level i = GPIO_PIN_RESET := by
  obtain ⟨c, hc⟩ := find_col_of_valid keypad col_pin h
  rcases scan_valid idr keypad col_pin g c hc with hs | ⟨r, hs⟩
  · rw [hs]
    exact replay_ends_low keypad g.level _ i
  · rw [hs]
    exact replay_ends_low keypad g.level _ i

theorem keypad_map_mem (r : Fin KEYPAD_ROWS) (c : Fin KEYPAD_COLS) :
    keypad_map r c ∈ ['0', '1', '2', '3', '4', '5', '6', '7', '8', '9', 'A', 'B', 'C', 'D',
      '*', '#'] := by
  revert r c; decide

theorem keypad_map_ne_nul (r : Fin KEYPAD_ROWS) (c : Fin KEYPAD_COLS) :
    keypad_map r c ≠ '\x00' := by
  revert r c; decide

/-- Trace form of `scan_valid`: the key and the events of the call. -/
theorem scan_trace_cases (idr : GPIO → Nat → Nat → GPIO_PinState) (keypad : keypad_handle_t)
    (col_pin : Nat) (g : GPIO) (c : Fin KEYPAD_COLS)
    (h : find_col keypad col_pin (List.finRange KEYPAD_COLS) = some c) :
    ((keypad_scan idr keypad col_pin g).1 = '\x00' ∧
        scan_trace idr keypad col_pin g = miss_trace keypad c) ∨
    ∃ r : Fin KEYPAD_ROWS,
      (keypad_scan idr keypad col_pin g).1 = keypad_map r c ∧
        scan_trace idr keypad col_pin g = hit_trace keypad c r := by
  rcases scan_valid idr keypad col_pin g c h with hs | ⟨r, hs⟩
  · left
    simp only [scan_trace]
    rw [hs]
    exact ⟨rfl, events_since_append g _ _⟩
  · right
    refine ⟨r, ?_⟩
    simp only [scan_trace]
    rw [hs]
    exact ⟨rfl, events_since_append g _ _⟩

theorem scan_trace_foreign (idr : GPIO → Nat → Nat → GPIO_PinState) (keypad : keypad_handle_t)
    (col_pin : Nat) (g : GPIO) (h : ∀ i, keypad.col_pins i ≠ col_pin) :
    scan_trace idr keypad col_pin g = [] := by
  simp [scan_trace, scan_foreign idr keypad col_pin g h, events_since_self]

theorem reads_of_miss_trace (keypad : keypad_handle_t) (c : Fin KEYPAD_COLS) :
    reads_of (miss_trace keypad c) =
      [GPIO_PIN_SET, GPIO_PIN_SET, GPIO_PIN_SET, GPIO_PIN_SET] := by
  rfl

theorem reads_of_hit_trace (keypad : keypad_handle_t) (c : Fin KEYPAD_COLS)
    (r : Fin KEYPAD_ROWS) :
    reads_of (hit_trace keypad c r) = List.replicate r.val GPIO_PIN_SET ++ [GPIO_PIN_RESET] := by
  fin_cases r <;> rfl

/-- With the single key at junction `(r, c)` closed and row `r` high on entry
of the probing loop, the loop returns the symbol at `(r, c)` as soon as `r` is
among the rows to visit. -/
theorem probe_rows_junction (idr : GPIO → Nat → Nat → GPIO_PinState) (keypad : keypad_handle_t)
    (r : Fin KEYPAD_ROWS) (c : Fin KEYPAD_COLS) (hd : rows_distinct keypad)
    (hidr : ∀ g, idr g (keypad.col_ports c) (keypad.col_pins c) = GPIO_PIN_RESET ↔
      g.level (keypad.row_ports r) (keypad.row_pins r) = GPIO_PIN_RESET)
    (rows : List (Fin KEYPAD_ROWS)) (key : Char) (g : GPIO) (hr : r ∈ rows)
    (hg : g.level (keypad.row_ports r) (keypad.row_pins r) = GPIO_PIN_SET) :
    (probe_rows idr keypad c rows key g).1 = keypad_map r c := by
  induction rows generalizing g with
  | nil => simp at hr
  | cons a rest ih =>
    simp only [probe_rows, HAL_GPIO_ReadPin]
    by_cases ha : a = r
    · subst ha
      have hlow : idr (HAL_GPIO_WritePin g (keypad.row_ports a) (keypad.row_pins a)
          GPIO_PIN_RESET) (keypad.col_ports c) (keypad.col_pins c) = GPIO_PIN_RESET := by
        rw [hidr]
        simp [HAL_GPIO_WritePin, set_level]
      rw [if_pos hlow]
    · have hne : ¬ (keypad.row_ports r = keypad.row_ports a ∧
          keypad.row_pins r = keypad.row_pins a) := by
        rintro ⟨h1, h2⟩
        exact ha (hd r a h1 h2).symm
      have hhigh : ¬ idr (HAL_GPIO_WritePin g (keypad.row_ports a) (keypad.row_pins a)
          GPIO_PIN_RESET) (keypad.col_ports c) (keypad.col_pins c) = GPIO_PIN_RESET := by
        rw [hidr]
        simp [HAL_GPIO_WritePin, set_level, hne, hg]
      rw [if_neg hhigh]
      apply ih
      · rcases List.mem_cons.1 hr with h | h
        · exact absurd h.symm ha
        · exact h
      · simp [HAL_GPIO_WritePin, set_level, hne, hg]

theorem scan_rows_stay_low (idr : GPIO → Nat → Nat → GPIO_PinState) (keypad : keypad_handle_t)
    (col_pin : Nat) (g : GPIO) (hidle : ∀ i, row_level keypad g.level i = GPIO_PIN_RESET)
    (i : Fin KEYPAD_ROWS) :
    row_level keypad (keypad_scan idr keypad col_pin g).2.level i = GPIO_PIN_RESET := by
  by_cases hv : ∃ j, keypad.col_pins j = col_pin
  · exact rows_low_of_valid idr keypad col_pin g hv i
  · have hf : ∀ j, keypad.col_pins j ≠ col_pin := fun j hj => hv ⟨j, hj⟩
    rw [scan_foreign idr keypad col_pin g hf]
    exact hidle i

/-! ## Row exclusivity during probing -/

theorem all_high_exclusive (keypad : keypad_handle_t) (lv : Nat → Nat → GPIO_PinState)
    (h : all_high keypad lv) : at_most_one_low keypad lv := by
  intro i j hi _
  rw [h i] at hi
  exact absurd hi (by decide)

theorem only_low_exclusive (keypad : keypad_handle_t) (lv : Nat → Nat → GPIO_PinState)
    (r : Fin KEYPAD_ROWS) (h : only_low keypad lv r) : at_most_one_low keypad lv := by
  intro i j hi hj
  have hir : i = r := by
    by_contra hne
    rw [h.2 i hne] at hi
    exact absurd hi (by decide)
  have hjr : j = r := by
    by_contra hne
    rw [h.2 j hne] at hj
    exact absurd hj (by decide)
  rw [hir, hjr]

/-- With distinct row lines, writing row `a` changes the level of row `a` only. -/
theorem row_level_set (keypad : keypad_handle_t) (hd : rows_distinct keypad)
    (lv : Nat → Nat → GPIO_PinState) (a i : Fin KEYPAD_ROWS) (st : GPIO_PinState) :
    row_level keypad (set_level lv (keypad.row_ports a) (keypad.row_pins a) st) i =
      if i = a then st else row_level keypad lv i := by
  by_cases h : i = a
  · subst h
    simp [row_level, set_level]
  · have hne : ¬ (keypad.row_ports i = keypad.row_ports a ∧
        keypad.row_pins i = keypad.row_pins a) := fun hh => h (hd i a hh.1 hh.2)
    simp [row_level, set_level, h, hne]

theorem drive_low_only_low (keypad : keypad_handle_t) (hd : rows_distinct keypad)
    (lv : Nat → Nat → GPIO_PinState) (a : Fin KEYPAD_ROWS) (h : all_high keypad lv) :
    only_low keypad (set_level lv (keypad.row_ports a) (keypad.row_pins a) GPIO_PIN_RESET) a := by
  constructor
  · rw [row_level_set keypad hd]; simp
  · intro i hi
    rw [row_level_set keypad hd]
    simp [hi, h i]

theorem restore_high_all_high (keypad : keypad_handle_t) (hd : rows_distinct keypad)
    (lv : Nat → Nat → GPIO_PinState) (a : Fin KEYPAD_ROWS) (h : only_low keypad lv a) :
    all_high keypad (set_level lv (keypad.row_ports a) (keypad.row_pins a) GPIO_PIN_SET) := by
  intro i
  rw [row_level_set keypad hd]
  by_cases hi : i = a
  · simp [hi]
  · simp [hi, h.2 i hi]

/-- From a state with all rows high, the events of the probing loop (probes
that read high, optionally ended by a probe that reads low) pass the walk. -/
theorem probe_ok_probes (keypad : keypad_handle_t) (hd : rows_distinct keypad)
    (c : Fin KEYPAD_COLS) (tail : List GPIO_Event)
    (htail : tail = [] ∨ ∃ r, tail = probe_low keypad c r)
    (rows : List (Fin KEYPAD_ROWS)) (prev : Option GPIO_Event)
    (lv : Nat → Nat → GPIO_PinState) (h : all_high keypad lv) :
    probe_ok keypad prev lv (rows.flatMap (probe_high keypad c) ++ tail) := by
  induction rows generalizing prev lv with
  | nil =>
    rcases htail with rfl | ⟨r, rfl⟩
    · simpa [probe_ok] using all_high_exclusive keypad lv h
    · have hl := drive_low_only_low keypad hd lv r h
      simp only [List.flatMap_nil, List.nil_append, probe_low, probe_ok, row_write, col_read,
        apply_event]
      refine ⟨all_high_exclusive keypad lv h, by simp, only_low_exclusive keypad _ r hl, ?_,
        only_low_exclusive keypad _ r hl⟩
      intro _ _ _ _
      exact ⟨r, rfl, hl⟩
  | cons a rest ih =>
    have hl := drive_low_only_low keypad hd lv a h
    have hh := restore_high_all_high keypad hd _ a hl
    simp only [List.flatMap_cons, probe_high, List.cons_append, List.nil_append, probe_ok,
      row_write, col_read, apply_event]
    refine ⟨all_high_exclusive keypad lv h, by simp, only_low_exclusive keypad _ a hl, ?_,
      only_low_exclusive keypad _ a hl, by simp, ?_⟩
    · intro _ _ _ _
      exact ⟨a, rfl, hl⟩
    · exact ih _ _ hh

/-- What the walk gives for the prefixes of the trace. -/
theorem probe_ok_prefix (keypad : keypad_handle_t) (t : List GPIO_Event)
    (prev : Option GPIO_Event) (lv : Nat → Nat → GPIO_PinState)
    (h : probe_ok keypad prev lv t) :
    (∀ p, p <+: t → at_most_one_low keypad (replay lv p)) ∧
    (∀ p port pin v, p ++ [GPIO_Event.read port pin v] <+: t →
      ∃ r, only_low keypad (replay lv p) r ∧
        ((p = [] ∧ prev = some (row_write keypad GPIO_PIN_RESET r)) ∨
          ∃ q, p = q ++ [row_write keypad GPIO_PIN_RESET r])) := by
  induction t generalizing prev lv with
  | nil =>
    constructor
    · intro p hp
      rw [List.prefix_nil] at hp
      subst hp
      exact h
    · intro p port pin v hp
      rw [List.prefix_nil] at hp
      simp at hp
  | cons e t ih =>
    obtain ⟨h1, h2, h3⟩ := h
    obtain ⟨ih1, ih2⟩ := ih (some e) (apply_event lv e) h3
    constructor
    · intro p hp
      rcases List.prefix_cons_iff.1 hp with rfl | ⟨q, rfl, hq⟩
      · exact h1
      · exact ih1 q hq
    · intro p port pin v hp
      rcases List.prefix_cons_iff.1 hp with hnil | ⟨q, hq, hqt⟩
      · simp at hnil
      · cases p with
        | nil =>
          simp only [List.nil_append, List.cons.injEq] at hq
          obtain ⟨r, hr1, hr2⟩ := h2 port pin v hq.1.symm
          exact ⟨r, hr2, Or.inl ⟨rfl, hr1⟩⟩
        | cons e2 p2 =>
          simp only [List.cons_append, List.cons.injEq] at hq
          obtain ⟨he, hq⟩ := hq
          subst he
          rw [← hq] at hqt
          obtain ⟨r, hr1, hr2⟩ := ih2 p2 port pin v hqt
          refine ⟨r, hr1, Or.inr ?_⟩
          rcases hr2 with ⟨hp2, he⟩ | ⟨q2, hq2⟩
          · refine ⟨[], ?_⟩
            simp only [Option.some.injEq] at he
            simp [hp2, he]
          · exact ⟨e2 :: q2, by simp [hq2]⟩

theorem prefix_append_cases {α : Type} (p a b : List α) (h : p <+: a ++ b) :
    p <+: a ∨ ∃ q, p = a ++ q ∧ q <+: b := by
  rcases List.prefix_or_prefix_of_prefix h (List.prefix_append a b) with h1 | ⟨q, rfl⟩
  · exact Or.inl h1
  · exact Or.inr ⟨q, rfl, (List.prefix_append_right_inj a).1 h⟩

/-- An event that occurs neither in `hi` nor in `lo` and ends a prefix of
`hi ++ mid ++ lo` ends a prefix of `mid`. -/
theorem concat_prefix_mid {α : Type} (hi mid lo p : List α) (e : α) (hhi : e ∉ hi)
    (hlo : e ∉ lo) (h : p ++ [e] <+: hi ++ mid ++ lo) :
    ∃ q, p = hi ++ q ∧ q ++ [e] <+: mid := by
  rw [List.append_assoc] at h
  rcases prefix_append_cases _ _ _ h with h1 | ⟨q, hq, hqm⟩
  · exact absurd (h1.subset (by simp)) hhi
  · rcases List.eq_nil_or_concat q with rfl | ⟨q1, x, rfl⟩
    · rw [List.append_nil] at hq
      exact absurd (hq ▸ (by simp : e ∈ p ++ [e])) hhi
    · have hq2 : p ++ [e] = (hi ++ q1) ++ [x] := by rw [hq]; simp
      obtain ⟨hp, hx⟩ := List.append_inj' hq2 rfl
      simp only [List.cons.injEq, and_true] at hx
      subst hx
      refine ⟨q1, hp, ?_⟩
      rw [List.concat_eq_append] at hqm
      rcases prefix_append_cases _ _ _ hqm with h2 | ⟨q2, hq2', hq2lo⟩
      · exact h2
      · rcases List.eq_nil_or_concat q2 with rfl | ⟨q3, y, rfl⟩
        · rw [List.append_nil] at hq2'
          rw [hq2']
        · rw [List.concat_eq_append] at hq2' hq2lo
          have h3 : q1 ++ [e] = (mid ++ q3) ++ [y] := by rw [hq2']; simp
          obtain ⟨_, hy⟩ := List.append_inj' h3 rfl
          simp only [List.cons.injEq, and_true] at hy
          subst hy
          exact absurd (hq2lo.subset (by simp)) hlo

theorem read_not_row_write (keypad : keypad_handle_t) (st : GPIO_PinState)
    (rows : List (Fin KEYPAD_ROWS)) (port pin : Nat) (v : GPIO_PinState) :
    GPIO_Event.read port pin v ∉ rows.map (row_write keypad st) := by
  simp [row_write]

/-- A scan of a valid column: the events between the set-all-high writes and
the restore-all-low writes are probes that read high, optionally ended by one
probe that read low. -/
theorem scan_valid_mid (idr : GPIO → Nat → Nat → GPIO_PinState) (keypad : keypad_handle_t)
    (col_pin : Nat) (g : GPIO) (c : Fin KEYPAD_COLS)
    (h : find_col keypad col_pin (List.finRange KEYPAD_COLS) = some c) :
    ∃ (rows : List (Fin KEYPAD_ROWS)) (tail : List GPIO_Event),
      (tail = [] ∨ ∃ r, tail = probe_low keypad c r) ∧
      (keypad_scan idr keypad col_pin g).2 =
        { level := replay g.level
            ((List.finRange KEYPAD_ROWS).map (row_write keypad GPIO_PIN_SET) ++
              (rows.flatMap (probe_high keypad c) ++ tail) ++
              (List.finRange KEYPAD_ROWS).map (row_write keypad GPIO_PIN_RESET))
          log := g.log ++
            ((List.finRange KEYPAD_ROWS).map (row_write keypad GPIO_PIN_SET) ++
              (rows.flatMap (probe_high keypad c) ++ tail) ++
              (List.finRange KEYPAD_ROWS).map (row_write keypad GPIO_PIN_RESET)) } := by
  rcases scan_valid idr keypad col_pin g c h with hs | ⟨r, hs⟩
  · refine ⟨List.finRange KEYPAD_ROWS, [], Or.inl rfl, ?_⟩
    rw [hs, List.append_nil]
    rfl
  · refine ⟨(List.finRange KEYPAD_ROWS).take r.val, probe_low keypad c r, Or.inr ⟨r, rfl⟩, ?_⟩
    rw [hs]
    rfl

/-! ## Events and frame of the two operations -/

/-- Trace form of `scan_valid_mid`. -/
theorem scan_trace_mid (idr : GPIO → Nat → Nat → GPIO_PinState) (keypad : keypad_handle_t)
    (col_pin : Nat) (g : GPIO) (c : Fin KEYPAD_COLS)
    (h : find_col keypad col_pin (List.finRange KEYPAD_COLS) = some c) :
    ∃ (rows : List (Fin KEYPAD_ROWS)) (tail : List GPIO_Event),
      (tail = [] ∨ ∃ r, tail = probe_low keypad c r) ∧
      scan_trace idr keypad col_pin g =
        (List.finRange KEYPAD_ROWS).map (row_write keypad GPIO_PIN_SET) ++
          (rows.flatMap (probe_high keypad c) ++ tail) ++
          (List.finRange KEYPAD_ROWS).map (row_write keypad GPIO_PIN_RESET) := by
  obtain ⟨rows, tail, htail, hs⟩ := scan_valid_mid idr keypad col_pin g c h
  refine ⟨rows, tail, htail, ?_⟩
  simp only [scan_trace]
  rw [hs]
  exact events_since_append g _ _

/-- Every event of a scan resolved to column `c` is a write to a row line or a
read of the line of column `c`. -/
theorem scan_trace_events (idr : GPIO → Nat → Nat → GPIO_PinState) (keypad : keypad_handle_t)
    (col_pin : Nat) (g : GPIO) (c : Fin KEYPAD_COLS)
    (h : find_col keypad col_pin (List.finRange KEYPAD_COLS) = some c)
    (e : GPIO_Event) (he : e ∈ scan_trace idr keypad col_pin g) :
    (∃ st i, e = row_write keypad st i) ∨ (∃ v, e = col_read keypad c v) := by
  obtain ⟨rows, tail, htail, ht⟩ := scan_trace_mid idr keypad col_pin g c h
  rw [ht] at he
  simp only [List.mem_append, List.mem_map, List.mem_flatMap] at he
  rcases he with (⟨i, _, hi⟩ | ⟨a, _, ha⟩ | htl) | ⟨i, _, hi⟩
  · exact Or.inl ⟨_, i, hi.symm⟩
  · simp only [probe_high, List.mem_cons, List.mem_singleton, List.not_mem_nil, or_false] at ha
    rcases ha with rfl | rfl | rfl
    · exact Or.inl ⟨_, a, rfl⟩
    · exact Or.inr ⟨_, rfl⟩
    · exact Or.inl ⟨_, a, rfl⟩
  · rcases htail with rfl | ⟨r, rfl⟩
    · simp at htl
    · simp only [probe_low, List.mem_cons, List.mem_singleton, List.not_mem_nil, or_false] at htl
      rcases htl with rfl | rfl
      · exact Or.inl ⟨_, r, rfl⟩
      · exact Or.inr ⟨_, rfl⟩
  · exact Or.inl ⟨_, i, hi.symm⟩

/-- The levels on exit of a scan are those reached by replaying its trace. -/
theorem scan_level_replay (idr : GPIO → Nat → Nat → GPIO_PinState) (keypad : keypad_handle_t)
    (col_pin : Nat) (g : GPIO) :
    (keypad_scan idr keypad col_pin g).2.level =
      replay g.level (scan_trace idr keypad col_pin g) := by
  cases hf : find_col keypad col_pin (List.finRange KEYPAD_COLS) with
  | none =>
    have hfor : ∀ i, keypad.col_pins i ≠ col_pin :=
      fun i => (find_col_none _ _ _).1 hf i (List.mem_finRange i)
    rw [scan_trace_foreign idr keypad col_pin g hfor, scan_foreign idr keypad col_pin g hfor]
    rfl
  | some c =>
    obtain ⟨rows, tail, _, hs⟩ := scan_valid_mid idr keypad col_pin g c hf
    simp only [scan_trace]
    rw [hs, events_since_append]

theorem init_trace_eq (keypad : keypad_handle_t) (g : GPIO) :
    init_trace keypad g = (List.finRange KEYPAD_ROWS).map (row_write keypad GPIO_PIN_RESET) := by
  simp only [init_trace, keypad_init, write_rows_eq]
  exact events_since_append g _ _

/-- A line that no write of the trace targets keeps its level. -/
theorem replay_frame (t : List GPIO_Event) (lv : Nat → Nat → GPIO_PinState) (p q : Nat)
    (h : ∀ port pin st, GPIO_Event.write port pin st ∈ t → ¬ (p = port ∧ q = pin)) :
    replay lv t p q = lv p q := by
  induction t generalizing lv with
  | nil => rfl
  | cons e t ih =>
    rw [replay_cons, ih]
    · cases e with
      | write port pin st =>
        have hne := h port pin st (by simp)
        simp [apply_event, set_level, hne]
      | read port pin st => rfl
    · intro port pin st hm
      exact h port pin st (List.mem_cons_of_mem _ hm)

/-! ## Independence from the entry levels -/

/-- With distinct column pin numbers, `matrix_input` reads each column low
exactly when a row connected to it is driven low. -/
theorem matrix_input_spec (keypad : keypad_handle_t)
    (closed : Fin KEYPAD_ROWS → Fin KEYPAD_COLS → Bool) (hcols : col_pins_distinct keypad)
    (g : GPIO) (c : Fin KEYPAD_COLS) :
    matrix_input keypad closed g (keypad.col_ports c) (keypad.col_pins c) = GPIO_PIN_RESET ↔
      ∃ r, closed r c = true ∧ row_level keypad g.level r = GPIO_PIN_RESET := by
  by_cases h : ∃ c2 r, keypad.col_ports c = keypad.col_ports c2 ∧
      keypad.col_pins c = keypad.col_pins c2 ∧ closed r c2 = true ∧
      g.level (keypad.row_ports r) (keypad.row_pins r) = GPIO_PIN_RESET
  · simp only [matrix_input, if_pos h, true_iff]
    obtain ⟨c2, r, _, hq, hcl, hl⟩ := h
    have hc : c = c2 := hcols c c2 hq
    subst hc
    exact ⟨r, hcl, hl⟩
  · simp only [matrix_input, if_neg h]
    constructor
    · intro hf
      exact absurd hf (by decide)
    · rintro ⟨r, hcl, hl⟩
      exact absurd ⟨c, r, rfl, rfl, hcl, hl⟩ h

/-- When the reading of column `c` is a function of the row levels alone, the
probing loop returns the same key from any two states with the same row
levels. -/
theorem probe_rows_same_key (idr : GPIO → Nat → Nat → GPIO_PinState) (keypad : keypad_handle_t)
    (c : Fin KEYPAD_COLS) (live : Fin KEYPAD_ROWS → Bool)
    (hidr : ∀ g, idr g (keypad.col_ports c) (keypad.col_pins c) = GPIO_PIN_RESET ↔
      ∃ r, live r = true ∧ row_level keypad g.level r = GPIO_PIN_RESET)
    (rows : List (Fin KEYPAD_ROWS)) (key : Char) (g1 g2 : GPIO)
    (hag : ∀ i, row_level keypad g1.level i = row_level keypad g2.level i) :
    (probe_rows idr keypad c rows key g1).1 = (probe_rows idr keypad c rows key g2).1 := by
  induction rows generalizing g1 g2 with
  | nil => rfl
  | cons a rest ih =>
    have hlow : ∀ i, row_level keypad
        (HAL_GPIO_WritePin g1 (keypad.row_ports a) (keypad.row_pins a) GPIO_PIN_RESET).level i =
        row_level keypad
          (HAL_GPIO_WritePin g2 (keypad.row_ports a) (keypad.row_pins a) GPIO_PIN_RESET).level
          i := by
      intro i
      have := hag i
      simp only [row_level, HAL_GPIO_WritePin, set_level] at this ⊢
      rw [this]
    have hiff : idr (HAL_GPIO_WritePin g1 (keypad.row_ports a) (keypad.row_pins a)
          GPIO_PIN_RESET) (keypad.col_ports c) (keypad.col_pins c) = GPIO_PIN_RESET ↔
        idr (HAL_GPIO_WritePin g2 (keypad.row_ports a) (keypad.row_pins a)
          GPIO_PIN_RESET) (keypad.col_ports c) (keypad.col_pins c) = GPIO_PIN_RESET := by
      rw [hidr, hidr]
      simp only [hlow]
    simp only [probe_rows, HAL_GPIO_ReadPin]
    by_cases h1 : idr (HAL_GPIO_WritePin g1 (keypad.row_ports a) (keypad.row_pins a)
        GPIO_PIN_RESET) (keypad.col_ports c) (keypad.col_pins c) = GPIO_PIN_RESET
    · rw [if_pos h1, if_pos (hiff.1 h1)]
    · rw [if_neg h1, if_neg (fun h2 => h1 (hiff.2 h2))]
      apply ih
      intro i
      have := hlow i
      simp only [row_level, HAL_GPIO_WritePin, set_level] at this ⊢
      rw [this]

/-! ## The claims -/

/-- C1: with pairwise distinct row lines and pairwise distinct column pin
numbers, a scan triggered by column `c`'s pin, on hardware whose column `c`
reads low exactly when row `r` is driven low, returns `keypad_map r c`. -/
theorem C1_single_key_resolves (idr : GPIO → Nat → Nat → GPIO_PinState)
    (keypad : keypad_handle_t) (r : Fin KEYPAD_ROWS) (c : Fin KEYPAD_COLS) (g : GPIO)
    (hrows : rows_distinct keypad) (hcols : col_pins_distinct keypad)
    (hidr : ∀ g, idr g (keypad.col_ports c) (keypad.col_pins c) = GPIO_PIN_RESET ↔
      g.level (keypad.row_ports r) (keypad.row_pins r) = GPIO_PIN_RESET) :
    (keypad_scan idr keypad (keypad.col_pins c) g).1 = keypad_map r c := by
  have hf : find_col keypad (keypad.col_pins c) (List.finRange KEYPAD_COLS) = some c := by
    rw [find_col_first]
    refine ⟨rfl, ?_⟩
    intro j hj hjc
    exact absurd (hcols j c hjc) (ne_of_lt hj)
  simp only [keypad_scan, hf]
  apply probe_rows_junction idr keypad r c hrows hidr _ _ _ (List.mem_finRange r)
  rw [write_rows_eq]
  exact replay_row_writes keypad GPIO_PIN_SET _ g.level r (Or.inr (List.mem_finRange r))

theorem C1_single_key_resolves_witness :
    rows_distinct board ∧ col_pins_distinct board ∧
      (∀ g, key_down board 2 2 g (board.col_ports 2) (board.col_pins 2) = GPIO_PIN_RESET ↔
        g.level (board.row_ports 2) (board.row_pins 2) = GPIO_PIN_RESET) ∧
      (keypad_scan (key_down board 2 2) board (board.col_pins 2) idle).1 = '9' :=
  ⟨by decide, by decide, fun g => by simp [key_down],
    C1_single_key_resolves (key_down board 2 2) board 2 2 idle (by decide) (by decide)
      (fun g => by simp [key_down])⟩

/-- C2: a scan whose triggering pin is none of the four column pins returns
the sentinel, performs no GPIO call at all (the GPIO state, log included, is the
one on entry, and the trace of the call is empty), and so leaves every row
line at the level it had on entry. -/
theorem C2_foreign_pin_touches_nothing (idr : GPIO → Nat → Nat → GPIO_PinState)
    (keypad : keypad_handle_t) (col_pin : Nat) (g : GPIO)
    (h : ∀ i, keypad.col_pins i ≠ col_pin) :
    (keypad_scan idr keypad col_pin g).1 = '\x00' ∧
      (keypad_scan idr keypad col_pin g).2 = g ∧
      scan_trace idr keypad col_pin g = [] ∧
      ∀ i, row_level keypad (keypad_scan idr keypad col_pin g).2.level i =
        row_level keypad g.level i := by
  have hs := scan_foreign idr keypad col_pin g h
  refine ⟨by rw [hs], by rw [hs], ?_, ?_⟩
  · simp [scan_trace, hs, events_since_self]
  · intro i; rw [hs]

theorem C2_foreign_pin_touches_nothing_witness :
    (∀ i, board.col_pins i ≠ 5) ∧
      (keypad_scan (key_down board 2 2) board 5 idle).1 = '\x00' ∧
      (keypad_scan (key_down board 2 2) board 5 idle).2 = idle ∧
      scan_trace (key_down board 2 2) board 5 idle = [] ∧
      ∀ i, row_level board (keypad_scan (key_down board 2 2) board 5 idle).2.level i =
        row_level board idle.level i :=
  ⟨by decide, C2_foreign_pin_touches_nothing (key_down board 2 2) board 5 idle (by decide)⟩

/-- C3: after a scan triggered by one of the handle's column pins, whatever the
levels on entry and whatever the column input returns, all four row lines are
low. -/
theorem C3_rows_low_after_valid_scan (idr : GPIO → Nat → Nat → GPIO_PinState)
    (keypad : keypad_handle_t) (col_pin : Nat) (g : GPIO)
    (h : ∃ i, keypad.col_pins i = col_pin) :
    ∀ i, row_level keypad (keypad_scan idr keypad col_pin g).2.level i = GPIO_PIN_RESET :=
  fun i => rows_low_of_valid idr keypad col_pin g h i

theorem C3_rows_low_after_valid_scan_witness :
    (∃ i, board.col_pins i = 64) ∧
      ∀ i, row_level board (keypad_scan no_key board 64
        { level := fun _ _ => GPIO_PIN_SET, log := [] }).2.level i = GPIO_PIN_RESET :=
  ⟨by decide, C3_rows_low_after_valid_scan no_key board 64 _ (by decide)⟩

/-- C4: for a handle with pairwise distinct row lines and a valid triggering
pin, replaying the events of the scan from the levels on entry: (1) the levels
on exit are those reached by the whole trace; (2) every read of the scan comes
right after the write that drove some row `r` low, and at that moment row `r`
is low and every other row is high; (3) the trace is the four set-high writes,
a middle part, and the four restore-low writes, and after every prefix of the
middle part no two different rows are low together. -/
theorem C4_one_row_low_while_probing (idr : GPIO → Nat → Nat → GPIO_PinState)
    (keypad : keypad_handle_t) (col_pin : Nat) (g : GPIO)
    (hrows : rows_distinct keypad) (hvalid : ∃ i, keypad.col_pins i = col_pin) :
    (keypad_scan idr keypad col_pin g).2.level =
        replay g.level (scan_trace idr keypad col_pin g) ∧
      (∀ p port pin v,
        p ++ [GPIO_Event.read port pin v] <+: scan_trace idr keypad col_pin g →
        ∃ r, (∃ q, p = q ++ [row_write keypad GPIO_PIN_RESET r]) ∧
          row_level keypad (replay g.level p) r = GPIO_PIN_RESET ∧
          ∀ i, i ≠ r → row_level keypad (replay g.level p) i = GPIO_PIN_SET) ∧
      ∃ mid,
        scan_trace idr keypad col_pin g =
          (List.finRange KEYPAD_ROWS).map (row_write keypad GPIO_PIN_SET) ++ mid ++
            (List.finRange KEYPAD_ROWS).map (row_write keypad GPIO_PIN_RESET) ∧
        ∀ p, p <+: mid → ∀ i j,
          row_level keypad
              (replay g.level
                ((List.finRange KEYPAD_ROWS).map (row_write keypad GPIO_PIN_SET) ++ p)) i =
            GPIO_PIN_RESET →
          row_level keypad
              (replay g.level
                ((List.finRange KEYPAD_ROWS).map (row_write keypad GPIO_PIN_SET) ++ p)) j =
            GPIO_PIN_RESET →
          i = j := by
  obtain ⟨c, hc⟩ := find_col_of_valid keypad col_pin hvalid
  obtain ⟨rows, tail, htail, hs⟩ := scan_valid_mid idr keypad col_pin g c hc
  have ht : scan_trace idr keypad col_pin g =
      (List.finRange KEYPAD_ROWS).map (row_write keypad GPIO_PIN_SET) ++
        (rows.flatMap (probe_high keypad c) ++ tail) ++
        (List.finRange KEYPAD_ROWS).map (row_write keypad GPIO_PIN_RESET) := by
    simp only [scan_trace]
    rw [hs]
    exact events_since_append g _ _
  have hhigh : all_high keypad
      (replay g.level ((List.finRange KEYPAD_ROWS).map (row_write keypad GPIO_PIN_SET))) :=
    fun i => replay_row_writes keypad GPIO_PIN_SET _ g.level i (Or.inr (List.mem_finRange i))
  obtain ⟨hex, hrd⟩ := probe_ok_prefix keypad _ none _
    (probe_ok_probes keypad hrows c tail htail rows none _ hhigh)
  refine ⟨?_, ?_, ?_⟩
  · rw [ht, hs]
  · intro p port pin v hp
    rw [ht] at hp
    obtain ⟨q, hq, hqm⟩ := concat_prefix_mid _ _ _ p _
      (read_not_row_write keypad GPIO_PIN_SET _ port pin v)
      (read_not_row_write keypad GPIO_PIN_RESET _ port pin v) hp
    obtain ⟨r, hr, hlast⟩ := hrd q port pin v hqm
    rcases hlast with ⟨_, hnone⟩ | ⟨q2, hq2⟩
    · simp at hnone
    · refine ⟨r, ⟨(List.finRange KEYPAD_ROWS).map (row_write keypad GPIO_PIN_SET) ++ q2, ?_⟩,
        ?_, ?_⟩
      · rw [hq, hq2, List.append_assoc]
      · rw [hq, replay_append]
        exact hr.1
      · intro i hi
        rw [hq, replay_append]
        exact hr.2 i hi
  · refine ⟨rows.flatMap (probe_high keypad c) ++ tail, ht, ?_⟩
    intro p hp i j hi hj
    rw [replay_append] at hi hj
    exact hex p hp i j hi hj

theorem C4_one_row_low_while_probing_witness :
    rows_distinct board ∧ (∃ i, board.col_pins i = 64) ∧
      (keypad_scan (key_down board 1 2) board 64 idle).2.level =
        replay idle.level (scan_trace (key_down board 1 2) board 64 idle) ∧
      (∀ p port pin v,
        p ++ [GPIO_Event.read port pin v] <+: scan_trace (key_down board 1 2) board 64 idle →
        ∃ r, (∃ q, p = q ++ [row_write board GPIO_PIN_RESET r]) ∧
          row_level board (replay idle.level p) r = GPIO_PIN_RESET ∧
          ∀ i, i ≠ r → row_level board (replay idle.level p) i = GPIO_PIN_SET) ∧
      ∃ mid,
        scan_trace (key_down board 1 2) board 64 idle =
          (List.finRange KEYPAD_ROWS).map (row_write board GPIO_PIN_SET) ++ mid ++
            (List.finRange KEYPAD_ROWS).map (row_write board GPIO_PIN_RESET) ∧
        ∀ p, p <+: mid → ∀ i j,
          row_level board
              (replay idle.level
                ((List.finRange KEYPAD_ROWS).map (row_write board GPIO_PIN_SET) ++ p)) i =
            GPIO_PIN_RESET →
          row_level board
              (replay idle.level
                ((List.finRange KEYPAD_ROWS).map (row_write board GPIO_PIN_SET) ++ p)) j =
            GPIO_PIN_RESET →
          i = j :=
  ⟨by decide, by decide,
    C4_one_row_low_while_probing (key_down board 1 2) board 64 idle (by decide) (by decide)⟩

/-- C5: a scan returns the sentinel exactly when the triggering pin is foreign,
or it is a column pin and the four probes of the scan all read high (the reads
of the call are four highs); in that second case all rows are low on return;
and every non-sentinel result is the mapped symbol of some row at a column that
carries the triggering pin. -/
theorem C5_sentinel_iff_foreign_or_all_high (idr : GPIO → Nat → Nat → GPIO_PinState)
    (keypad : keypad_handle_t) (col_pin : Nat) (g : GPIO) :
    ((keypad_scan idr keypad col_pin g).1 = '\x00' ↔
        ((∀ i, keypad.col_pins i ≠ col_pin) ∨
          ((∃ i, keypad.col_pins i = col_pin) ∧
            reads_of (scan_trace idr keypad col_pin g) =
              [GPIO_PIN_SET, GPIO_PIN_SET, GPIO_PIN_SET, GPIO_PIN_SET]))) ∧
      ((∃ i, keypad.col_pins i = col_pin) →
        reads_of (scan_trace idr keypad col_pin g) =
          [GPIO_PIN_SET, GPIO_PIN_SET, GPIO_PIN_SET, GPIO_PIN_SET] →
        ∀ i, row_level keypad (keypad_scan idr keypad col_pin g).2.level i = GPIO_PIN_RESET) ∧
      ((keypad_scan idr keypad col_pin g).1 ≠ '\x00' →
        ∃ r c, keypad.col_pins c = col_pin ∧
          (keypad_scan idr keypad col_pin g).1 = keypad_map r c) := by
  refine ⟨?_, fun hv _ i => rows_low_of_valid idr keypad col_pin g hv i, ?_⟩
  · cases hf : find_col keypad col_pin (List.finRange KEYPAD_COLS) with
    | none =>
      have hfor : ∀ i, keypad.col_pins i ≠ col_pin :=
        fun i => (find_col_none _ _ _).1 hf i (List.mem_finRange i)
      rw [scan_foreign idr keypad col_pin g hfor]
      exact ⟨fun _ => Or.inl hfor, fun _ => rfl⟩
    | some c =>
      have hc : keypad.col_pins c = col_pin := find_col_some _ _ _ _ hf
      rcases scan_trace_cases idr keypad col_pin g c hf with ⟨hk, ht⟩ | ⟨r, hk, ht⟩
      · rw [ht, reads_of_miss_trace]
        exact ⟨fun _ => Or.inr ⟨⟨c, hc⟩, rfl⟩, fun _ => hk⟩
      · rw [hk, ht, reads_of_hit_trace]
        constructor
        · intro h0
          exact absurd h0 (keypad_map_ne_nul r c)
        · rintro (hfor | ⟨_, hreads⟩)
          · exact absurd hc (hfor c)
          · exfalso
            fin_cases r <;> simp at hreads
  · intro hne
    cases hf : find_col keypad col_pin (List.finRange KEYPAD_COLS) with
    | none =>
      have hfor : ∀ i, keypad.col_pins i ≠ col_pin :=
        fun i => (find_col_none _ _ _).1 hf i (List.mem_finRange i)
      rw [scan_foreign idr keypad col_pin g hfor] at hne
      exact absurd rfl hne
    | some c =>
      have hc : keypad.col_pins c = col_pin := find_col_some _ _ _ _ hf
      rcases scan_trace_cases idr keypad col_pin g c hf with ⟨hk, _⟩ | ⟨r, hk, _⟩
      · exact absurd hk hne
      · exact ⟨r, c, hc, hk⟩

theorem C5_sentinel_iff_foreign_or_all_high_witness :
    (∃ i, board.col_pins i = 64) ∧
      reads_of (scan_trace no_key board 64 idle) =
        [GPIO_PIN_SET, GPIO_PIN_SET, GPIO_PIN_SET, GPIO_PIN_SET] ∧
      (keypad_scan no_key board 64 idle).1 = '\x00' ∧
      (∀ i, row_level board (keypad_scan no_key board 64 idle).2.level i = GPIO_PIN_RESET) ∧
      (keypad_scan (key_down board 2 2) board 64 idle).1 ≠ '\x00' ∧
      ∃ r c, board.col_pins c = 64 ∧
        (keypad_scan (key_down board 2 2) board 64 idle).1 = keypad_map r c :=
  ⟨by decide, by decide,
    (C5_sentinel_iff_foreign_or_all_high no_key board 64 idle).1.2
      (Or.inr ⟨by decide, by decide⟩),
    (C5_sentinel_iff_foreign_or_all_high no_key board 64 idle).2.1 (by decide) (by decide),
    by decide,
    (C5_sentinel_iff_foreign_or_all_high (key_down board 2 2) board 64 idle).2.2 (by decide)⟩

/-- C6: the value returned by a scan is the sentinel or one of the sixteen key
symbols, for every handle, pin, GPIO state and input behaviour. -/
theorem C6_result_in_symbol_set (idr : GPIO → Nat → Nat → GPIO_PinState)
    (keypad : keypad_handle_t) (col_pin : Nat) (g : GPIO) :
    (keypad_scan idr keypad col_pin g).1 = '\x00' ∨
      (keypad_scan idr keypad col_pin g).1 ∈
        ['0', '1', '2', '3', '4', '5', '6', '7', '8', '9', 'A', 'B', 'C', 'D', '*', '#'] := by
  cases hf : find_col keypad col_pin (List.finRange KEYPAD_COLS) with
  | none =>
    left
    simp [keypad_scan, hf]
  | some c =>
    rcases scan_valid idr keypad col_pin g c hf with hs | ⟨r, hs⟩
    · left; rw [hs]
    · right; rw [hs]; exact keypad_map_mem r c

/-- C7: the trace of `keypad_init` is exactly one write of the low level per
row, in row order, with no read, and afterwards every row line is low. -/
theorem C7_init_drives_rows_low (keypad : keypad_handle_t) (g : GPIO) :
    init_trace keypad g =
        [GPIO_Event.write (keypad.row_ports 0) (keypad.row_pins 0) GPIO_PIN_RESET,
         GPIO_Event.write (keypad.row_ports 1) (keypad.row_pins 1) GPIO_PIN_RESET,
         GPIO_Event.write (keypad.row_ports 2) (keypad.row_pins 2) GPIO_PIN_RESET,
         GPIO_Event.write (keypad.row_ports 3) (keypad.row_pins 3) GPIO_PIN_RESET] ∧
      (keypad_init keypad g).log = g.log ++ init_trace keypad g ∧
      reads_of (init_trace keypad g) = [] ∧
      ∀ i, row_level keypad (keypad_init keypad g).level i = GPIO_PIN_RESET := by
  have ht : init_trace keypad g = (List.finRange KEYPAD_ROWS).map (row_write keypad GPIO_PIN_RESET) := by
    simp only [init_trace, keypad_init, write_rows_eq]
    exact events_since_append g _ _
  refine ⟨?_, ?_, ?_, ?_⟩
  · rw [ht, finRange_rows]; rfl
  · rw [ht]; simp [keypad_init, write_rows_eq]
  · rw [ht, finRange_rows]; rfl
  · intro i
    simp only [keypad_init, write_rows_eq]
    exact replay_row_writes keypad _ _ _ i (Or.inr (List.mem_finRange i))

/-- C8: when all row lines are low on entry, every scan (foreign or valid pin,
any input behaviour) leaves each row line at its entry level; hence a second
scan leaves the row levels of the first unchanged, and so does a `keypad_init`
after a scan. -/
theorem C8_scan_preserves_idle_rows (keypad : keypad_handle_t) (g : GPIO)
    (hidle : ∀ i, row_level keypad g.level i = GPIO_PIN_RESET) :
    (∀ idr col_pin i, row_level keypad (keypad_scan idr keypad col_pin g).2.level i =
        row_level keypad g.level i) ∧
      (∀ idr1 col_pin1 idr2 col_pin2 i,
        row_level keypad
            (keypad_scan idr2 keypad col_pin2 (keypad_scan idr1 keypad col_pin1 g).2).2.level i =
          row_level keypad (keypad_scan idr1 keypad col_pin1 g).2.level i) ∧
      (∀ idr col_pin i,
        row_level keypad (keypad_init keypad (keypad_scan idr keypad col_pin g).2).level i =
          row_level keypad (keypad_scan idr keypad col_pin g).2.level i) := by
  refine ⟨?_, ?_, ?_⟩
  · intro idr col_pin i
    rw [scan_rows_stay_low idr keypad col_pin g hidle i, hidle i]
  · intro idr1 col_pin1 idr2 col_pin2 i
    have h1 := scan_rows_stay_low idr1 keypad col_pin1 g hidle
    rw [scan_rows_stay_low idr2 keypad col_pin2 _ h1 i, h1 i]
  · intro idr col_pin i
    rw [scan_rows_stay_low idr keypad col_pin g hidle i]
    simp only [keypad_init, write_rows_eq]
    exact replay_row_writes keypad _ _ _ i (Or.inr (List.mem_finRange i))

theorem C8_scan_preserves_idle_rows_witness :
    (∀ i, row_level board idle.level i = GPIO_PIN_RESET) ∧
      ∀ i, row_level board (keypad_scan (key_down board 2 2) board 64 idle).2.level i =
        row_level board idle.level i :=
  ⟨by decide, (C8_scan_preserves_idle_rows board idle (by decide)).1 (key_down board 2 2) 64⟩

/-- C9: when `col_pin` resolves to column `c` (the lowest column carrying it)
and some read of the scan returns low, there is a row `r` such that the scan
returns `keypad_map r c` and its trace is exactly: all rows written high; for
each row below `r` in order, that row written low, the column read high, that
row written high; row `r` written low, the column read low; all rows written
low.  So `r` is the first row whose probe read low and no later row is probed. -/
theorem C9_first_low_row_wins (idr : GPIO → Nat → Nat → GPIO_PinState)
    (keypad : keypad_handle_t) (col_pin : Nat) (g : GPIO) (c : Fin KEYPAD_COLS)
    (hc : keypad.col_pins c = col_pin) (hfirst : ∀ j, j < c → keypad.col_pins j ≠ col_pin)
    (hlow : GPIO_PIN_RESET ∈ reads_of (scan_trace idr keypad col_pin g)) :
    ∃ r : Fin KEYPAD_ROWS,
      (keypad_scan idr keypad col_pin g).1 = keypad_map r c ∧
      scan_trace idr keypad col_pin g =
        (List.finRange KEYPAD_ROWS).map (row_write keypad GPIO_PIN_SET) ++
          (((List.finRange KEYPAD_ROWS).take r.val).flatMap (probe_high keypad c) ++
            probe_low keypad c r) ++
          (List.finRange KEYPAD_ROWS).map (row_write keypad GPIO_PIN_RESET) ∧
      reads_of (scan_trace idr keypad col_pin g) =
        List.replicate r.val GPIO_PIN_SET ++ [GPIO_PIN_RESET] := by
  have hf : find_col keypad col_pin (List.finRange KEYPAD_COLS) = some c :=
    (find_col_first keypad col_pin c).2 ⟨hc, hfirst⟩
  rcases scan_trace_cases idr keypad col_pin g c hf with ⟨_, ht⟩ | ⟨r, hk, ht⟩
  · rw [ht, reads_of_miss_trace] at hlow
    simp at hlow
  · refine ⟨r, hk, ?_, ?_⟩
    · rw [ht]; rfl
    · rw [ht]; exact reads_of_hit_trace keypad c r

theorem C9_first_low_row_wins_witness :
    board.col_pins 2 = 64 ∧ (∀ j, j < (2 : Fin KEYPAD_COLS) → board.col_pins j ≠ 64) ∧
      GPIO_PIN_RESET ∈ reads_of (scan_trace (key_down board 1 2) board 64 idle) ∧
      ∃ r : Fin KEYPAD_ROWS,
        (keypad_scan (key_down board 1 2) board 64 idle).1 = keypad_map r 2 ∧
        scan_trace (key_down board 1 2) board 64 idle =
          (List.finRange KEYPAD_ROWS).map (row_write board GPIO_PIN_SET) ++
            (((List.finRange KEYPAD_ROWS).take r.val).flatMap (probe_high board 2) ++
              probe_low board 2 r) ++
            (List.finRange KEYPAD_ROWS).map (row_write board GPIO_PIN_RESET) ∧
        reads_of (scan_trace (key_down board 1 2) board 64 idle) =
          List.replicate r.val GPIO_PIN_SET ++ [GPIO_PIN_RESET] :=
  ⟨by decide, by decide, by decide,
    C9_first_low_row_wins (key_down board 1 2) board 64 idle 2 (by decide) (by decide)
      (by decide)⟩

/-- C10: `keypad_scan` is a total function, and the number of column reads of a
call is at most `KEYPAD_ROWS`: none when the pin is foreign, `r + 1` when the
read of position `r` (the probe of row `r`) is the one that returns low, and
`KEYPAD_ROWS` when the pin is valid and no read returns low. -/
theorem C10_read_count (idr : GPIO → Nat → Nat → GPIO_PinState)
    (keypad : keypad_handle_t) (col_pin : Nat) (g : GPIO) :
    (reads_of (scan_trace idr keypad col_pin g)).length ≤ KEYPAD_ROWS ∧
      ((∀ i, keypad.col_pins i ≠ col_pin) →
        (reads_of (scan_trace idr keypad col_pin g)).length = 0) ∧
      (∀ r : Nat, (reads_of (scan_trace idr keypad col_pin g))[r]? = some GPIO_PIN_RESET →
        (reads_of (scan_trace idr keypad col_pin g)).length = r + 1) ∧
      ((∃ i, keypad.col_pins i = col_pin) →
        GPIO_PIN_RESET ∉ reads_of (scan_trace idr keypad col_pin g) →
        (reads_of (scan_trace idr keypad col_pin g)).length = KEYPAD_ROWS) := by
  cases hf : find_col keypad col_pin (List.finRange KEYPAD_COLS) with
  | none =>
    have hfor : ∀ i, keypad.col_pins i ≠ col_pin :=
      fun i => (find_col_none _ _ _).1 hf i (List.mem_finRange i)
    rw [scan_trace_foreign idr keypad col_pin g hfor]
    refine ⟨by simp [reads_of], fun _ => rfl, ?_, ?_⟩
    · intro r hr
      simp [reads_of] at hr
    · rintro ⟨i, hi⟩ _
      exact absurd hi (hfor i)
  | some c =>
    have hc : keypad.col_pins c = col_pin := find_col_some _ _ _ _ hf
    rcases scan_trace_cases idr keypad col_pin g c hf with ⟨_, ht⟩ | ⟨r, _, ht⟩
    · rw [ht, reads_of_miss_trace]
      refine ⟨by simp, fun hfor => absurd hc (hfor c), ?_, fun _ _ => rfl⟩
      intro r hr
      rcases r with _ | _ | _ | _ | r <;> simp at hr
    · rw [ht, reads_of_hit_trace]
      refine ⟨?_, fun hfor => absurd hc (hfor c), ?_, ?_⟩
      · have := r.isLt
        simp
        omega
      · intro k hk
        fin_cases r <;> rcases k with _ | _ | _ | _ | k <;> simp at hk ⊢
      · intro _ hno
        simp at hno

theorem C10_read_count_witness :
    (reads_of (scan_trace (key_down board 2 2) board 64 idle))[2]? = some GPIO_PIN_RESET ∧
      (reads_of (scan_trace (key_down board 2 2) board 64 idle)).length = 2 + 1 ∧
      (∃ i, board.col_pins i = 64) ∧
      GPIO_PIN_RESET ∉ reads_of (scan_trace no_key board 64 idle) ∧
      (reads_of (scan_trace no_key board 64 idle)).length = KEYPAD_ROWS :=
  ⟨by decide, (C10_read_count (key_down board 2 2) board 64 idle).2.2.1 2 (by decide),
    by decide, by decide,
    (C10_read_count no_key board 64 idle).2.2.2 (by decide) (by decide)⟩

/-- C11, the claim as stated fails: in the handle `twin` columns 0 and 1 carry
the same pin number (and the same port), and a scan triggered by that pin
number reads the line of the higher-indexed column 1. -/
theorem C11_shared_line_is_sampled :
    (0 : Fin KEYPAD_COLS) < 1 ∧ twin.col_pins 0 = twin.col_pins 1 ∧
      find_col twin 16 (List.finRange KEYPAD_COLS) = some 0 ∧
      GPIO_Event.read (twin.col_ports 1) (twin.col_pins 1) GPIO_PIN_SET ∈
        scan_trace no_key twin 16 idle := by
  decide

/-- C11 (amended): the column search resolves `col_pin` to `c` exactly when `c`
is the lowest index whose pin number equals `col_pin`; the search gives the same
answer on any handle with the same column pin numbers (ports play no part);
every read of the scan targets the line of the resolved column; and when two
columns carry the same pin number the higher-indexed one is never resolved, and
its line is never read unless it is the very line of the resolved column. -/
theorem C11_first_match_on_pin_number (idr : GPIO → Nat → Nat → GPIO_PinState)
    (keypad : keypad_handle_t) (col_pin : Nat) (g : GPIO) :
    (∀ c, find_col keypad col_pin (List.finRange KEYPAD_COLS) = some c ↔
        (keypad.col_pins c = col_pin ∧ ∀ j, j < c → keypad.col_pins j ≠ col_pin)) ∧
      (∀ other : keypad_handle_t, other.col_pins = keypad.col_pins →
        find_col other col_pin (List.finRange KEYPAD_COLS) =
          find_col keypad col_pin (List.finRange KEYPAD_COLS)) ∧
      (∀ c, find_col keypad col_pin (List.finRange KEYPAD_COLS) = some c →
        ∀ port pin v, GPIO_Event.read port pin v ∈ scan_trace idr keypad col_pin g →
          port = keypad.col_ports c ∧ pin = keypad.col_pins c) ∧
      (∀ i j, i < j → keypad.col_pins i = keypad.col_pins j →
        find_col keypad col_pin (List.finRange KEYPAD_COLS) ≠ some j ∧
        ∀ c, find_col keypad col_pin (List.finRange KEYPAD_COLS) = some c →
          ¬ (keypad.col_ports j = keypad.col_ports c ∧ keypad.col_pins j = keypad.col_pins c) →
          ∀ v, GPIO_Event.read (keypad.col_ports j) (keypad.col_pins j) v ∉
            scan_trace idr keypad col_pin g) := by
  have hreads : ∀ c, find_col keypad col_pin (List.finRange KEYPAD_COLS) = some c →
      ∀ port pin v, GPIO_Event.read port pin v ∈ scan_trace idr keypad col_pin g →
        port = keypad.col_ports c ∧ pin = keypad.col_pins c := by
    intro c hc port pin v hm
    rcases scan_trace_events idr keypad col_pin g c hc _ hm with ⟨st, i, he⟩ | ⟨w, he⟩
    · simp [row_write] at he
    · simp only [col_read, GPIO_Event.read.injEq] at he
      exact ⟨he.1, he.2.1⟩
  refine ⟨fun c => find_col_first keypad col_pin c, ?_, hreads, ?_⟩
  · intro other hpins
    cases hf : find_col keypad col_pin (List.finRange KEYPAD_COLS) with
    | none =>
      rw [find_col_none] at hf ⊢
      rw [hpins]
      exact hf
    | some c =>
      rw [find_col_first] at hf ⊢
      rw [hpins]
      exact hf
  · intro i j hij hpins
    constructor
    · intro hj
      obtain ⟨hjp, hlow⟩ := (find_col_first keypad col_pin j).1 hj
      exact hlow i hij (hpins.trans hjp)
    · intro c hc hne v hm
      obtain ⟨h1, h2⟩ := hreads c hc _ _ v hm
      exact hne ⟨h1, h2⟩

theorem C11_first_match_on_pin_number_witness :
    (0 : Fin KEYPAD_COLS) < 1 ∧ cross_port.col_pins 0 = cross_port.col_pins 1 ∧
      find_col cross_port 16 (List.finRange KEYPAD_COLS) = some 0 ∧
      ¬ (cross_port.col_ports 1 = cross_port.col_ports 0 ∧
        cross_port.col_pins 1 = cross_port.col_pins 0) ∧
      find_col cross_port 16 (List.finRange KEYPAD_COLS) ≠ some 1 ∧
      (∀ v, GPIO_Event.read (cross_port.col_ports 1) (cross_port.col_pins 1) v ∉
        scan_trace (key_down cross_port 1 0) cross_port 16 idle) ∧
      (∀ port pin v,
        GPIO_Event.read port pin v ∈ scan_trace (key_down cross_port 1 0) cross_port 16 idle →
        port = cross_port.col_ports 0 ∧ pin = cross_port.col_pins 0) :=
  ⟨by decide, by decide, by decide, by decide,
    ((C11_first_match_on_pin_number (key_down cross_port 1 0) cross_port 16 idle).2.2.2 0 1
      (by decide) (by decide)).1,
    ((C11_first_match_on_pin_number (key_down cross_port 1 0) cross_port 16 idle).2.2.2 0 1
      (by decide) (by decide)).2 0 (by decide) (by decide),
    (C11_first_match_on_pin_number (key_down cross_port 1 0) cross_port 16 idle).2.2.1 0
      (by decide)⟩

/-- C12, the claim as stated fails: with distinct row lines, the key at
junction (2, 2) closed and a triggering pin that is no column pin, the run that
starts with all rows low and the run that starts with all rows high return the
same character but end with row 0 at different levels. -/
theorem C12_foreign_pin_ends_differ :
    rows_distinct board ∧
      (∀ g c, matrix_input board only_2_2 g (board.col_ports c) (board.col_pins c) =
          GPIO_PIN_RESET ↔
        ∃ r, only_2_2 r c = true ∧ row_level board g.level r = GPIO_PIN_RESET) ∧
      (keypad_scan (matrix_input board only_2_2) board 5 idle).1 =
        (keypad_scan (matrix_input board only_2_2) board 5 all_set).1 ∧
      row_level board (keypad_scan (matrix_input board only_2_2) board 5 idle).2.level 0 ≠
        row_level board (keypad_scan (matrix_input board only_2_2) board 5 all_set).2.level 0 :=
  ⟨by decide, fun g c => matrix_input_spec board only_2_2 (by decide) g c, by decide, by decide⟩

/-- C12 (amended): when every column reads low exactly when some row connected
to it (by the closed junctions) is driven low, two runs of the scan with the
same handle and pin, started from any two GPIO states, return the same
character; if the pin is one of the handle's column pins both runs end with the
same row levels; if the pin is foreign each run leaves every row line at the
level that run found on entry. -/
theorem C12_key_independent_of_entry_levels (idr : GPIO → Nat → Nat → GPIO_PinState)
    (keypad : keypad_handle_t) (col_pin : Nat)
    (closed : Fin KEYPAD_ROWS → Fin KEYPAD_COLS → Bool) (g1 g2 : GPIO)
    (hidr : ∀ g c, idr g (keypad.col_ports c) (keypad.col_pins c) = GPIO_PIN_RESET ↔
      ∃ r, closed r c = true ∧ row_level keypad g.level r = GPIO_PIN_RESET) :
    (keypad_scan idr keypad col_pin g1).1 = (keypad_scan idr keypad col_pin g2).1 ∧
      ((∃ i, keypad.col_pins i = col_pin) →
        ∀ i, row_level keypad (keypad_scan idr keypad col_pin g1).2.level i =
          row_level keypad (keypad_scan idr keypad col_pin g2).2.level i) ∧
      ((∀ i, keypad.col_pins i ≠ col_pin) →
        ∀ i, row_level keypad (keypad_scan idr keypad col_pin g1).2.level i =
            row_level keypad g1.level i ∧
          row_level keypad (keypad_scan idr keypad col_pin g2).2.level i =
            row_level keypad g2.level i) := by
  refine ⟨?_, ?_, ?_⟩
  · cases hf : find_col keypad col_pin (List.finRange KEYPAD_COLS) with
    | none => simp [keypad_scan, hf]
    | some c =>
      simp only [keypad_scan, hf]
      apply probe_rows_same_key idr keypad c (fun r => closed r c) (fun g => hidr g c)
      intro i
      rw [write_rows_eq, write_rows_eq]
      rw [replay_row_writes keypad GPIO_PIN_SET _ g1.level i (Or.inr (List.mem_finRange i)),
        replay_row_writes keypad GPIO_PIN_SET _ g2.level i (Or.inr (List.mem_finRange i))]
  · intro hv i
    rw [rows_low_of_valid idr keypad col_pin g1 hv i,
      rows_low_of_valid idr keypad col_pin g2 hv i]
  · intro hfor i
    rw [scan_foreign idr keypad col_pin g1 hfor, scan_foreign idr keypad col_pin g2 hfor]
    exact ⟨rfl, rfl⟩

theorem C12_key_independent_of_entry_levels_witness :
    (∀ g c, matrix_input board only_2_2 g (board.col_ports c) (board.col_pins c) =
        GPIO_PIN_RESET ↔
      ∃ r, only_2_2 r c = true ∧ row_level board g.level r = GPIO_PIN_RESET) ∧
      (∃ i, board.col_pins i = 64) ∧
      (keypad_scan (matrix_input board only_2_2) board 64 idle).1 = '9' ∧
      (keypad_scan (matrix_input board only_2_2) board 64 idle).1 =
        (keypad_scan (matrix_input board only_2_2) board 64 all_set).1 ∧
      ∀ i, row_level board (keypad_scan (matrix_input board only_2_2) board 64 idle).2.level i =
        row_level board (keypad_scan (matrix_input board only_2_2) board 64 all_set).2.level i :=
  ⟨fun g c => matrix_input_spec board only_2_2 (by decide) g c, by decide, by decide,
    (C12_key_independent_of_entry_levels (matrix_input board only_2_2) board 64 only_2_2 idle
      all_set (fun g c => matrix_input_spec board only_2_2 (by decide) g c)).1,
    (C12_key_independent_of_entry_levels (matrix_input board only_2_2) board 64 only_2_2 idle
      all_set (fun g c => matrix_input_spec board only_2_2 (by decide) g c)).2.1 (by decide)⟩

/-- C13: every write in the trace of `keypad_init` and of `keypad_scan` targets
a row line of the handle, so any line that is not a row line (in particular a
column line distinct from all row lines) has the same level after either
operation as before it. -/
theorem C13_writes_only_row_lines (idr : GPIO → Nat → Nat → GPIO_PinState)
    (keypad : keypad_handle_t) (col_pin : Nat) (g : GPIO) :
    (∀ port pin st, GPIO_Event.write port pin st ∈ init_trace keypad g →
        ∃ i, port = keypad.row_ports i ∧ pin = keypad.row_pins i) ∧
      (∀ port pin st, GPIO_Event.write port pin st ∈ scan_trace idr keypad col_pin g →
        ∃ i, port = keypad.row_ports i ∧ pin = keypad.row_pins i) ∧
      (∀ p q, (∀ i, ¬ (p = keypad.row_ports i ∧ q = keypad.row_pins i)) →
        (keypad_init keypad g).level p q = g.level p q ∧
          (keypad_scan idr keypad col_pin g).2.level p q = g.level p q) ∧
      (∀ c, (∀ i, ¬ (keypad.col_ports c = keypad.row_ports i ∧
            keypad.col_pins c = keypad.row_pins i)) →
        (keypad_init keypad g).level (keypad.col_ports c) (keypad.col_pins c) =
            g.level (keypad.col_ports c) (keypad.col_pins c) ∧
          (keypad_scan idr keypad col_pin g).2.level (keypad.col_ports c) (keypad.col_pins c) =
            g.level (keypad.col_ports c) (keypad.col_pins c)) := by
  have hinit : ∀ port pin st, GPIO_Event.write port pin st ∈ init_trace keypad g →
      ∃ i, port = keypad.row_ports i ∧ pin = keypad.row_pins i := by
    intro port pin st hm
    rw [init_trace_eq] at hm
    simp only [List.mem_map, row_write, GPIO_Event.write.injEq] at hm
    obtain ⟨i, _, h1, h2, _⟩ := hm
    exact ⟨i, h1.symm, h2.symm⟩
  have hscan : ∀ port pin st, GPIO_Event.write port pin st ∈ scan_trace idr keypad col_pin g →
      ∃ i, port = keypad.row_ports i ∧ pin = keypad.row_pins i := by
    intro port pin st hm
    cases hf : find_col keypad col_pin (List.finRange KEYPAD_COLS) with
    | none =>
      have hfor : ∀ i, keypad.col_pins i ≠ col_pin :=
        fun i => (find_col_none _ _ _).1 hf i (List.mem_finRange i)
      rw [scan_trace_foreign idr keypad col_pin g hfor] at hm
      simp at hm
    | some c =>
      rcases scan_trace_events idr keypad col_pin g c hf _ hm with ⟨st2, i, he⟩ | ⟨v, he⟩
      · simp only [row_write, GPIO_Event.write.injEq] at he
        exact ⟨i, he.1, he.2.1⟩
      · simp [col_read] at he
  have hframe : ∀ p q, (∀ i, ¬ (p = keypad.row_ports i ∧ q = keypad.row_pins i)) →
      (keypad_init keypad g).level p q = g.level p q ∧
        (keypad_scan idr keypad col_pin g).2.level p q = g.level p q := by
    intro p q hpq
    constructor
    · have hl : (keypad_init keypad g).level = replay g.level (init_trace keypad g) := by
        rw [init_trace_eq]
        simp only [keypad_init, write_rows_eq]
      rw [hl]
      apply replay_frame
      intro port pin st hm hh
      obtain ⟨i, h1, h2⟩ := hinit port pin st hm
      exact hpq i ⟨hh.1.trans h1, hh.2.trans h2⟩
    · rw [scan_level_replay]
      apply replay_frame
      intro port pin st hm hh
      obtain ⟨i, h1, h2⟩ := hscan port pin st hm
      exact hpq i ⟨hh.1.trans h1, hh.2.trans h2⟩
  exact ⟨hinit, hscan, hframe, fun c hc => hframe _ _ hc⟩

theorem C13_writes_only_row_lines_witness :
    (∀ i, ¬ (board.col_ports 2 = board.row_ports i ∧ board.col_pins 2 = board.row_pins i)) ∧
      (keypad_init board all_set).level (board.col_ports 2) (board.col_pins 2) =
        all_set.level (board.col_ports 2) (board.col_pins 2) ∧
      (keypad_scan (key_down board 2 2) board 64 all_set).2.level (board.col_ports 2)
          (board.col_pins 2) =
        all_set.level (board.col_ports 2) (board.col_pins 2) :=
  ⟨by decide,
    (C13_writes_only_row_lines (key_down board 2 2) board 64 all_set).2.2.2 2 (by decide)⟩

/-- C14: the sixteen entries of `keypad_map` are pairwise distinct and none is
the sentinel; the entries are exactly the symbols '0'..'9', 'A'..'D', '*', '#';
and a non-sentinel result of `keypad_scan` is the entry of exactly one
(row, column) junction. -/
theorem C14_keypad_map_bijective :
    (∀ r c r2 c2, keypad_map r c = keypad_map r2 c2 → r = r2 ∧ c = c2) ∧
      (∀ r c, keypad_map r c ≠ '\x00') ∧
      (∀ ch, ch ∈ ['0', '1', '2', '3', '4', '5', '6', '7', '8', '9', 'A', 'B', 'C', 'D',
          '*', '#'] ↔ ∃ r c, keypad_map r c = ch) ∧
      (∀ (idr : GPIO → Nat → Nat → GPIO_PinState) (keypad : keypad_handle_t) (col_pin : Nat)
          (g : GPIO), (keypad_scan idr keypad col_pin g).1 ≠ '\x00' →
        ∃! rc : Fin KEYPAD_ROWS × Fin KEYPAD_COLS,
          keypad_map rc.1 rc.2 = (keypad_scan idr keypad col_pin g).1) := by
  have hinj : ∀ r c r2 c2, keypad_map r c = keypad_map r2 c2 → r = r2 ∧ c = c2 := by decide
  refine ⟨hinj, keypad_map_ne_nul, ?_, ?_⟩
  · intro ch
    constructor
    · revert ch
      decide
    · rintro ⟨r, c, rfl⟩
      exact keypad_map_mem r c
  · intro idr keypad col_pin g hne
    have hex : ∃ r c, (keypad_scan idr keypad col_pin g).1 = keypad_map r c := by
      cases hf : find_col keypad col_pin (List.finRange KEYPAD_COLS) with
      | none =>
        have hfor : ∀ i, keypad.col_pins i ≠ col_pin :=
          fun i => (find_col_none _ _ _).1 hf i (List.mem_finRange i)
        rw [scan_foreign idr keypad col_pin g hfor] at hne
        exact absurd rfl hne
      | some c =>
        rcases scan_trace_cases idr keypad col_pin g c hf with ⟨hk, _⟩ | ⟨r, hk, _⟩
        · exact absurd hk hne
        · exact ⟨r, c, hk⟩
    obtain ⟨r, c, hk⟩ := hex
    refine ⟨(r, c), hk.symm, ?_⟩
    rintro ⟨r2, c2⟩ h2
    have := hinj r2 c2 r c (h2.trans hk)
    simp [this.1, this.2]

theorem C14_keypad_map_bijective_witness :
    (keypad_scan (key_down board 2 2) board 64 idle).1 ≠ '\x00' ∧
      ∃! rc : Fin KEYPAD_ROWS × Fin KEYPAD_COLS,
        keypad_map rc.1 rc.2 = (keypad_scan (key_down board 2 2) board 64 idle).1 :=
  ⟨by decide, C14_keypad_map_bijective.2.2.2 (key_down board 2 2) board 64 idle (by decide)⟩

end Keypad
